import Mathlib

/-!
Verification development for the text-to-speech pipeline: sentence-boundary
text chunking, multi-chunk synthesis orchestration, and subtitle-timing
reconstruction.

Shallow-embedding conventions:
* JavaScript strings are modelled as `List Char`.
* JavaScript numbers are modelled exactly: `ℚ` for time, duration and
  percentage computations, `ℕ`/`ℤ` for indices and lengths.
* Audio byte buffers are modelled as `List ℕ`.
* The external synthesis engine is modelled as an oracle function supplied to
  the orchestrator; a failing engine call is an `Except.error`.
-/

/-! ## JavaScript string / number primitives -/

/-- Whitespace predicate used by the JavaScript `trim` / `\s` operations,
restricted to the ASCII whitespace characters that occur in this pipeline. -/
def isWs (c : Char) : Bool :=
  c == ' ' || c == '\t' || c == '\n' || c == '\r'

/-- Model of JavaScript `String.prototype.trim`: drop leading and trailing
whitespace. -/
def trimList (l : List Char) : List Char :=
  ((l.dropWhile isWs).reverse.dropWhile isWs).reverse

/-- Search helper for `jsLastIndexOf`: the largest start position `≤ i` at
which `pat` occurs in `l`, or `-1` if there is none. -/
def lastIdxAux (l pat : List Char) : ℕ → Int
  | 0 => if pat.isPrefixOf l then 0 else -1
  | i + 1 =>
    if pat.isPrefixOf (l.drop (i + 1)) then ((i + 1 : ℕ) : Int)
    else lastIdxAux l pat i

/-- Model of JavaScript `String.prototype.lastIndexOf(pat, fromIdx)`: the
largest index `≤ fromIdx` at which `pat` starts in `l`, or `-1`. -/
def jsLastIndexOf (l pat : List Char) (fromIdx : ℕ) : Int :=
  lastIdxAux l pat (min fromIdx l.length)

/-- Model of JavaScript `Math.round` (round half toward positive infinity). -/
def jsRound (q : ℚ) : ℤ := ⌊q + 1 / 2⌋

/-- Model of JavaScript number truncation toward zero (the integer part used
by the `%` remainder operator). -/
def jsTrunc (q : ℚ) : ℤ := if q < 0 then -⌊-q⌋ else ⌊q⌋

/-- Model of the JavaScript `%` remainder operator on numbers (sign of the
dividend). -/
def jsMod (a b : ℚ) : ℚ := a - b * jsTrunc (a / b)

/-- Model of JavaScript `String.prototype.padStart(n, c)`. -/
def padStart (s : String) (n : ℕ) (c : Char) : String :=
  String.mk (List.replicate (n - s.length) c) ++ s

/-- Model of JavaScript `Array.prototype.join(' ')` on a list of words. -/
def joinSpace (ws : List (List Char)) : List Char :=
  (List.intersperse [' '] ws).flatten

/-! ## Shared data model

These mirror the TypeScript interfaces of `src/lib/tts.ts`.  The source field
`Type` of `WordBoundary` is called `Type'` here because `Type` is reserved in
Lean. -/

/-- The `text` payload of a word-boundary event. -/
structure BoundaryText where
  Text : List Char
  Length : ℕ
  BoundaryType : String
deriving DecidableEq

/-- The `Data` payload of a word-boundary event; `Offset` and `Duration` are
in engine ticks (100 ns units). -/
structure BoundaryData where
  Offset : ℚ
  Duration : ℚ
  text : BoundaryText
deriving DecidableEq

/-- Word boundary metadata from the synthesis engine (interface
`WordBoundary` in `src/lib/tts.ts`). -/
structure WordBoundary where
  Type' : String
  Data : BoundaryData
deriving DecidableEq

/-- A filtered word entry of the `generateSRT` loop (the element type of its
`currentWords` accumulator). -/
structure Word where
  text : List Char
  startMs : ℚ
  endMs : ℚ
deriving DecidableEq, Inhabited

/-- One subtitle cue: 1-based index, start/end in milliseconds relative to
the assembled audio, and display text. -/
structure Cue where
  index : ℕ
  startMs : ℚ
  endMs : ℚ
  text : List Char
deriving DecidableEq, Inhabited

/-- Progress callback payload (interface `ProgressInfo`). -/
structure ProgressInfo where
  current : ℕ
  total : ℕ
  percent : ℤ
deriving DecidableEq

/-- Result of synthesizing one chunk: audio bytes plus word-boundary
events. -/
structure ChunkOut where
  audio : List ℕ
  boundaries : List WordBoundary
deriving DecidableEq, Inhabited

/-- Final result of a run (interface `SynthesisResult`). -/
structure SynthesisResult where
  audio : List ℕ
  srt : String
deriving DecidableEq

deriving instance DecidableEq for Except

/-- Convert ticks (100 ns) to milliseconds (`ticksToMs`). -/
def ticksToMs (ticks : ℚ) : ℚ := ticks / 10000

/-- Format milliseconds to an SRT timestamp `HH:MM:SS,mmm`
(`formatSrtTime`, identical in both source variants). -/
def formatSrtTime (ms : ℚ) : String :=
  let hours := ⌊ms / 3600000⌋
  let minutes := ⌊jsMod ms 3600000 / 60000⌋
  let seconds := ⌊jsMod ms 60000 / 1000⌋
  let milliseconds := ⌊jsMod ms 1000⌋
  padStart (toString hours) 2 '0' ++ ":" ++ padStart (toString minutes) 2 '0' ++ ":" ++
    padStart (toString seconds) 2 '0' ++ "," ++ padStart (toString milliseconds) 3 '0'

/-- Serialization of one cue, the string template
`index\ntimestamp --> timestamp\ntext\n` pushed onto `subtitles` by both SRT
generators. -/
def formatCue (c : Cue) : String :=
  toString c.index ++ "\n" ++ formatSrtTime c.startMs ++ " --> " ++ formatSrtTime c.endMs ++
    "\n" ++ String.mk c.text ++ "\n"

namespace Tts

/-! ## Embedding of `src/lib/tts.ts` (the canonical, event-driven variant) -/

/-- Constant `MAX_CHARS_PER_CHUNK` from `src/lib/tts.ts`. -/
def MAX_CHARS_PER_CHUNK : ℕ := 3000

/-- Constant `WORDS_PER_SUBTITLE` from `src/lib/tts.ts`. -/
def WORDS_PER_SUBTITLE : ℕ := 10

/-- Embedding of `mapSpeedToRate`. -/
def mapSpeedToRate (speed : ℚ) : String :=
  let percentage := jsRound ((speed - 1) * 100)
  if 0 ≤ percentage then "+" ++ toString percentage ++ "%" else toString percentage ++ "%"

/-- The `sentenceEnders` array of `splitTextIntoChunks`. -/
def sentenceEnders : List (List Char) :=
  [['.', ' '], ['!', ' '], ['?', ' '], ['.', '\n'], ['!', '\n'], ['?', '\n']]

/-- The `bestSplit` accumulation loop of `splitTextIntoChunks`: fold over
`sentenceEnders`, replacing `bestSplit` by `lastIndex + ender.length - 1`
whenever the raw `lastIndex` exceeds the current `bestSplit`. -/
def computeBestSplit (r : List Char) (maxCharsPerChunk : ℕ) : Int :=
  sentenceEnders.foldl
    (fun bestSplit ender =>
      let lastIndex := jsLastIndexOf r ender maxCharsPerChunk
      if bestSplit < lastIndex then lastIndex + (ender.length : Int) - 1
      else bestSplit)
    (-1)

/-- The `splitIndex` computation of one iteration of `splitTextIntoChunks`:
sentence-ender break if beyond half the budget, else last newline, else last
space, else a hard cut at `maxCharsPerChunk`.  The JavaScript comparison
`x > maxCharsPerChunk * 0.5` is expressed exactly as
`maxCharsPerChunk < 2 * x`. -/
def computeSplitIndex (r : List Char) (maxCharsPerChunk : ℕ) : ℕ :=
  let bestSplit := computeBestSplit r maxCharsPerChunk
  if (maxCharsPerChunk : Int) < 2 * bestSplit then bestSplit.toNat
  else
    let newlineIndex := jsLastIndexOf r ['\n'] maxCharsPerChunk
    if (maxCharsPerChunk : Int) < 2 * newlineIndex then newlineIndex.toNat
    else
      let spaceIndex := jsLastIndexOf r [' '] maxCharsPerChunk
      if (maxCharsPerChunk : Int) < 2 * spaceIndex then spaceIndex.toNat
      else maxCharsPerChunk

/-- The `while` loop of `splitTextIntoChunks`, indexed by fuel.  One unit of
fuel is consumed per iteration; `splitTextIntoChunks` supplies the trimmed
input's length as fuel, which is proved sufficient whenever
`0 < maxCharsPerChunk` (theorem for claim C8). -/
def splitGo (maxCharsPerChunk : ℕ) : ℕ → List Char → List (List Char)
  | 0, _ => []
  | fuel + 1, remainingText =>
    if remainingText.length = 0 then []
    else if remainingText.length ≤ maxCharsPerChunk then [remainingText]
    else
      trimList (remainingText.take (computeSplitIndex remainingText maxCharsPerChunk)) ::
        splitGo maxCharsPerChunk fuel
          (trimList (remainingText.drop (computeSplitIndex remainingText maxCharsPerChunk)))

/-- Embedding of `splitTextIntoChunks` from `src/lib/tts.ts` (identical code
appears in the estimation variant). -/
def splitTextIntoChunks (text : List Char) (maxCharsPerChunk : ℕ := MAX_CHARS_PER_CHUNK) :
    List (List Char) :=
  splitGo maxCharsPerChunk (trimList text).length (trimList text)

/-- The filtering condition of the `generateSRT` loop: skip events with empty
trimmed text and punctuation-only boundaries
(`if (!text || BoundaryType === 'PunctuationBoundary') continue`). -/
def keepBoundary (b : WordBoundary) : Bool :=
  !(trimList b.Data.text.Text).isEmpty && !(b.Data.text.BoundaryType == "PunctuationBoundary")

/-- The word entry the `generateSRT` loop pushes onto `currentWords`:
trimmed text, `startMs = ticksToMs(Offset) + timeOffset`,
`endMs = startMs + ticksToMs(Duration)`. -/
def wordOfBoundary (timeOffset : ℚ) (b : WordBoundary) : Word :=
  { text := trimList b.Data.text.Text
    startMs := ticksToMs b.Data.Offset + timeOffset
    endMs := ticksToMs b.Data.Offset + timeOffset + ticksToMs b.Data.Duration }

/-- The sequence of word entries processed by the `generateSRT` loop. -/
def wordsOf (boundaries : List WordBoundary) (timeOffset : ℚ) : List Word :=
  (boundaries.filter keepBoundary).map (wordOfBoundary timeOffset)

/-- The `isEndOfSentence` test of `generateSRT`: the (trimmed) word text
matches `/[.!?]$/`. -/
def endsSentence (t : List Char) : Bool :=
  match t.getLast? with
  | some c => c == '.' || c == '!' || c == '?'
  | none => false

/-- Build one subtitle cue from a nonempty word group: start of the first
word, end of the last word, texts joined by spaces. -/
def mkCue (idx : ℕ) (ws : List Word) : Cue :=
  { index := idx
    startMs := (ws.headD default).startMs
    endMs := (ws.getLastD default).endMs
    text := joinSpace (ws.map Word.text) }

/-- The grouping loop of `generateSRT`: push each word onto `currentWords`;
flush a cue when the group reaches `WORDS_PER_SUBTITLE` words or the word
ends a sentence; flush any trailing partial group at the end. -/
def srtLoop : List Word → List Word → ℕ → List Cue
  | [], currentWords, subtitleIndex =>
    if currentWords.isEmpty then [] else [mkCue subtitleIndex currentWords]
  | w :: ws, currentWords, subtitleIndex =>
    let cur := currentWords ++ [w]
    if WORDS_PER_SUBTITLE ≤ cur.length ∨ endsSentence w.text then
      mkCue subtitleIndex cur :: srtLoop ws [] (subtitleIndex + 1)
    else
      srtLoop ws cur subtitleIndex

/-- The cue records produced by `generateSRT` (before serialization). -/
def generateSRTCues (boundaries : List WordBoundary) (timeOffset : ℚ) : List Cue :=
  srtLoop (wordsOf boundaries timeOffset) [] 1

/-- Embedding of `generateSRT` from `src/lib/tts.ts`: the serialized cue
blocks joined with `'\n'` (empty input short-circuits to `""`). -/
def generateSRT (boundaries : List WordBoundary) (timeOffset : ℚ := 0) : String :=
  if boundaries.isEmpty then ""
  else String.intercalate "\n" ((generateSRTCues boundaries timeOffset).map formatCue)

/-- The per-chunk estimated duration
`(audio.length / 6000) * 1000` (48 kbps → 6000 bytes/second). -/
def estimatedDurationMs (audio : List ℕ) : ℚ :=
  ((audio.length : ℚ) / 6000) * 1000

/-- Shift one word-boundary event by the running time offset (milliseconds),
converted to ticks: `Offset + timeOffset * 10000`, all other fields kept. -/
def shiftBoundary (timeOffset : ℚ) (b : WordBoundary) : WordBoundary :=
  { b with Data := { b.Data with Offset := b.Data.Offset + timeOffset * 10000 } }

/-- The progress payload emitted after chunk `i` (0-based) of `total`:
`{current: i+1, total, percent: round(((i+1)/total)*100)}`. -/
def progressEvent (i total : ℕ) : ProgressInfo :=
  { current := i + 1
    total := total
    percent := jsRound ((((i : ℚ) + 1) / (total : ℚ)) * 100) }

/-- The chunk loop of `synthesizeSpeechWithSRT`.  `synth` is the external
synthesis engine (`synthesizeChunkWithMetadata`), taking the 0-based call
index, the chunk text and the voice; the loop accumulates audio buffers,
offset-shifted boundaries and the running `timeOffset`, and records the
progress events delivered to the callback, in order. -/
def synthLoop {ε : Type} (synth : ℕ → List Char → List Char → Except ε ChunkOut)
    (voice : List Char) (total : ℕ) :
    List (List Char) → ℕ → List (List ℕ) → List WordBoundary → ℚ → List ProgressInfo →
    Except ε (List (List ℕ) × List WordBoundary × List ProgressInfo)
  | [], _, audioBuffers, allBoundaries, _, events => .ok (audioBuffers, allBoundaries, events)
  | chunk :: rest, i, audioBuffers, allBoundaries, timeOffset, events =>
    match synth i chunk voice with
    | .error e => .error e
    | .ok out =>
      synthLoop synth voice total rest (i + 1)
        (audioBuffers ++ [out.audio])
        (allBoundaries ++ out.boundaries.map (shiftBoundary timeOffset))
        (timeOffset + estimatedDurationMs out.audio)
        (events ++ [progressEvent i total])

/-- Embedding of `synthesizeSpeechWithSRT` from `src/lib/tts.ts`.  The `rate`
parameter is accepted but, as in the source, never used.  On success the
returned pair holds the `SynthesisResult` (concatenated audio plus the SRT
generated from all accumulated boundaries) and the ordered progress-event
trace; on engine failure the whole run is the engine's error and nothing
accumulated survives. -/
def synthesizeSpeechWithSRT {ε : Type} (synth : ℕ → List Char → List Char → Except ε ChunkOut)
    (text voice : List Char) (rate : String) :
    Except ε (SynthesisResult × List ProgressInfo) :=
  let textChunks := splitTextIntoChunks text MAX_CHARS_PER_CHUNK
  match synthLoop synth voice textChunks.length textChunks 0 [] [] 0 [] with
  | .error e => .error e
  | .ok (audioBuffers, allBoundaries, events) =>
    .ok ({ audio := audioBuffers.flatten, srt := generateSRT allBoundaries 0 }, events)

end Tts

namespace TtsEst

/-! ## Embedding of the estimation-driven variant (`src/unnamed/part_003`) -/

/-- Constant `WORDS_PER_SUBTITLE` of the estimation variant: 8, not 10. -/
def WORDS_PER_SUBTITLE : ℕ := 8

/-- Constant `WORDS_PER_SECOND` of the estimation variant. -/
def WORDS_PER_SECOND : ℚ := 5 / 2

/-- Splitting on whitespace runs (`text.trim().split(/\s+/)` before the
nonempty filter); empty tokens between adjacent whitespace characters are
removed by the filter in `generateSRTFromTextCues`, as in the source. -/
def splitWsAux : List Char → List Char → List (List Char)
  | [], acc => [acc.reverse]
  | c :: cs, acc =>
    if isWs c then acc.reverse :: splitWsAux cs [] else splitWsAux cs (c :: acc)

/-- Whitespace split of a whole string. -/
def splitWs (l : List Char) : List (List Char) := splitWsAux l []

/-- The cue loop of `generateSRTFromText`
(`for (let i = 0; i < words.length; i += WORDS_PER_SUBTITLE)`): slice off
`WORDS_PER_SUBTITLE` words, give the cue `lineWords.length * msPerWord`
milliseconds, and walk `currentTimeMs` forward cumulatively. -/
def estimGo (msPerWord : ℚ) : List (List Char) → ℕ → ℚ → List Cue
  | [], _, _ => []
  | w :: ws, subtitleIndex, currentTimeMs =>
    let lineWords := (w :: ws).take WORDS_PER_SUBTITLE
    let lineDurationMs := (lineWords.length : ℚ) * msPerWord
    { index := subtitleIndex
      startMs := currentTimeMs
      endMs := currentTimeMs + lineDurationMs
      text := joinSpace lineWords } ::
      estimGo msPerWord ((w :: ws).drop WORDS_PER_SUBTITLE) (subtitleIndex + 1)
        (currentTimeMs + lineDurationMs)
termination_by ws _ _ => ws.length
decreasing_by simp [List.length_drop, WORDS_PER_SUBTITLE]; omega

/-- The cue records produced by `generateSRTFromText`: split the full text
into whitespace-separated words, divide `audioDurationMs / speed` evenly
(`msPerWord`), and group into fixed-size cues with cumulative times. -/
def generateSRTFromTextCues (text : List Char) (audioDurationMs : ℚ) (speed : ℚ) : List Cue :=
  let words := (splitWs (trimList text)).filter (fun w => !w.isEmpty)
  if words.length = 0 then []
  else
    let adjustedDuration := audioDurationMs / speed
    let msPerWord := adjustedDuration / (words.length : ℚ)
    estimGo msPerWord words 1 0

/-- Embedding of `generateSRTFromText` from the estimation variant:
serialized cue blocks joined with `'\n'`. -/
def generateSRTFromText (text : List Char) (audioDurationMs : ℚ) (speed : ℚ := 1) : String :=
  String.intercalate "\n" ((generateSRTFromTextCues text audioDurationMs speed).map formatCue)

end TtsEst

/-- Formalisation of the spec sentence "converts a 0.5–2.0 speed multiplier
into the engine's `±N%` rate parameter via `round((speed-1)*100)`,
sign-prefixed": the rounded percentage, prefixed with `+` when nonnegative
(negative numbers already carry their `-` sign), followed by `%`. -/
def mapSpeedToRatePercentSpec (speed : ℚ) : String :=
  let n := jsRound ((speed - 1) * 100)
  (if 0 ≤ n then "+" ++ toString n else toString n) ++ "%"

/-! ## Concrete inputs for counterexamples and witnesses -/

/-- The string `"abcd. xyz"`: a sentence ender starts exactly at index 4. -/
def cexText : List Char := ['a', 'b', 'c', 'd', '.', ' ', 'x', 'y', 'z']

/-- A 50-word input (the word `w` repeated 50 times, space-separated). -/
def fiftyWordText : List Char := (List.replicate 50 ['w', ' ']).flatten

/-- A 9-word input (the word `a` repeated 9 times, space-separated). -/
def nineWordText : List Char := (List.replicate 9 ['a', ' ']).flatten

/-- A sample word-boundary event for witnesses. -/
def demoBoundary (off dur : ℚ) (t : List Char) : WordBoundary :=
  ⟨"WordBoundary", ⟨off, dur, ⟨t, t.length, "WordBoundary"⟩⟩⟩

/-- An engine oracle that always succeeds with empty audio and no metadata. -/
def okSynth : ℕ → List Char → List Char → Except Unit ChunkOut :=
  fun _ _ _ => .ok { audio := [], boundaries := [] }

/-- An engine oracle that always fails. -/
def failSynth : ℕ → List Char → List Char → Except Unit ChunkOut :=
  fun _ _ _ => .error ()

/-- A pure engine behavior producing one byte of audio and one boundary. -/
def oneBoundaryOut : ℕ → List Char → List Char → ChunkOut :=
  fun _ _ _ => { audio := [97], boundaries := [demoBoundary 50000 10000 ['h', 'i']] }

/-- The per-call outputs of a pure (always-succeeding) engine behavior `f`
over a chunk list, starting at call index `i` — proof scaffolding used to
characterize `synthLoop`. -/
def outsOf (f : ℕ → List Char → List Char → ChunkOut) (voice : List Char) :
    List (List Char) → ℕ → List ChunkOut
  | [], _ => []
  | chunk :: rest, i => f i chunk voice :: outsOf f voice rest (i + 1)

/-- The boundary accumulation of `synthLoop` over a list of chunk outputs,
starting from running offset `off` — proof scaffolding. -/
def runBoundaries : List ChunkOut → ℚ → List WordBoundary
  | [], _ => []
  | out :: rest, off =>
    out.boundaries.map (Tts.shiftBoundary off) ++
      runBoundaries rest (off + Tts.estimatedDurationMs out.audio)

/-! ## Theorems -/

/-! ### Lemmas about the whitespace-trimming model -/

theorem length_dropWhile_le (p : Char → Bool) (l : List Char) :
    (l.dropWhile p).length ≤ l.length := by
  induction l with
  | nil => simp
  | cons a l ih =>
    by_cases h : p a
    · simp only [List.dropWhile_cons, h, if_true]
      simp; omega
    · simp [List.dropWhile_cons, h]

theorem dropWhile_eq_or_lt (p : Char → Bool) (l : List Char) :
    l.dropWhile p = l ∨ (l.dropWhile p).length < l.length := by
  induction l with
  | nil => simp
  | cons a l ih =>
    by_cases h : p a
    · right
      simp only [List.dropWhile_cons, h, if_true]
      have := length_dropWhile_le p l
      simp; omega
    · left; simp [List.dropWhile_cons, h]

theorem dropWhile_idem (p : Char → Bool) (l : List Char) :
    (l.dropWhile p).dropWhile p = l.dropWhile p := by
  induction l with
  | nil => simp
  | cons a l ih =>
    by_cases h : p a
    · simp [List.dropWhile_cons, h, ih]
    · simp [List.dropWhile_cons, h]

theorem dropWhile_head_false (p : Char → Bool) (l : List Char) (c : Char) (l' : List Char)
    (h : l.dropWhile p = c :: l') : p c = false := by
  induction l with
  | nil => simp at h
  | cons a l ih =>
    by_cases ha : p a
    · exact ih (by simpa [List.dropWhile_cons, ha] using h)
    · simp only [List.dropWhile_cons, ha, if_false] at h
      cases h; simpa using ha

theorem trimList_length_le (l : List Char) : (trimList l).length ≤ l.length := by
  unfold trimList
  calc ((l.dropWhile isWs).reverse.dropWhile isWs).reverse.length
      = ((l.dropWhile isWs).reverse.dropWhile isWs).length := by simp
    _ ≤ (l.dropWhile isWs).reverse.length := length_dropWhile_le _ _
    _ = (l.dropWhile isWs).length := by simp
    _ ≤ l.length := length_dropWhile_le _ _

theorem filter_notWs_dropWhile (l : List Char) :
    (l.dropWhile isWs).filter (fun c => !isWs c) = l.filter (fun c => !isWs c) := by
  induction l with
  | nil => simp
  | cons a l ih =>
    by_cases h : isWs a
    · simp [List.dropWhile_cons, h, ih, List.filter_cons]
    · simp [List.dropWhile_cons, h]

theorem filter_notWs_trimList (l : List Char) :
    (trimList l).filter (fun c => !isWs c) = l.filter (fun c => !isWs c) := by
  unfold trimList
  rw [List.filter_reverse, filter_notWs_dropWhile, List.filter_reverse,
    List.reverse_reverse, filter_notWs_dropWhile]

theorem trimList_left_fixed (l : List Char) (h : trimList l = l) :
    l.dropWhile isWs = l := by
  rcases dropWhile_eq_or_lt isWs l with h1 | h1
  · exact h1
  · exfalso
    have h2 : (trimList l).length ≤ (l.dropWhile isWs).length := by
      unfold trimList
      calc ((l.dropWhile isWs).reverse.dropWhile isWs).reverse.length
          = ((l.dropWhile isWs).reverse.dropWhile isWs).length := by simp
        _ ≤ (l.dropWhile isWs).reverse.length := length_dropWhile_le _ _
        _ = (l.dropWhile isWs).length := by simp
    rw [h] at h2; omega

theorem trimList_head_notWs (l : List Char) (c : Char) (l' : List Char)
    (htrim : trimList l = l) (hl : l = c :: l') : isWs c = false :=
  dropWhile_head_false isWs l c l' (by rw [trimList_left_fixed l htrim, hl])

theorem trimList_take_ne_nil (r : List Char) (c : Char) (r' : List Char) (s : ℕ)
    (hr : r = c :: r') (hc : isWs c = false) (hs : 1 ≤ s) :
    trimList (r.take s) ≠ [] := by
  intro hnil
  have h1 : (r.take s).filter (fun c => !isWs c) = [] := by
    rw [← filter_notWs_trimList, hnil]; simp
  obtain ⟨s', rfl⟩ : ∃ s', s = s' + 1 := ⟨s - 1, by omega⟩
  rw [hr] at h1
  simp only [List.take_succ_cons, List.filter_cons, hc] at h1
  simp at h1

theorem trimList_prefix_exists (l : List Char) :
    ∃ v, trimList l ++ v = l.dropWhile isWs := by
  refine ⟨((l.dropWhile isWs).reverse.takeWhile isWs).reverse, ?_⟩
  unfold trimList
  rw [← List.reverse_append, List.takeWhile_append_dropWhile, List.reverse_reverse]

theorem trimList_idem (l : List Char) : trimList (trimList l) = trimList l := by
  have hL : (trimList l).dropWhile isWs = trimList l := by
    cases h : trimList l with
    | nil => simp
    | cons c t =>
      obtain ⟨v, hv⟩ := trimList_prefix_exists l
      rw [h] at hv
      have hmfix : (l.dropWhile isWs).dropWhile isWs = l.dropWhile isWs := dropWhile_idem isWs l
      have hc : isWs c = false := by
        refine dropWhile_head_false isWs (l.dropWhile isWs) c (t ++ v) ?_
        rw [hmfix, ← hv]; simp
      simp [List.dropWhile_cons, hc]
  calc trimList (trimList l)
      = (((trimList l).dropWhile isWs).reverse.dropWhile isWs).reverse := rfl
    _ = ((trimList l).reverse.dropWhile isWs).reverse := by rw [hL]
    _ = trimList l := by
        show ((((l.dropWhile isWs).reverse.dropWhile isWs).reverse.reverse.dropWhile
          isWs).reverse) = trimList l
        rw [List.reverse_reverse, dropWhile_idem]
        rfl

/-! ### Bounds for the split-index computation -/

theorem lastIdxAux_le (l pat : List Char) : ∀ i : ℕ, lastIdxAux l pat i ≤ (i : Int) := by
  intro i
  induction i with
  | zero => simp [lastIdxAux]; split <;> simp
  | succ i ih =>
    simp only [lastIdxAux]
    split
    · simp
    · calc lastIdxAux l pat i ≤ (i : Int) := ih
        _ ≤ ((i + 1 : ℕ) : Int) := by push_cast; omega

theorem jsLastIndexOf_le (l pat : List Char) (fromIdx : ℕ) :
    jsLastIndexOf l pat fromIdx ≤ (fromIdx : Int) := by
  calc jsLastIndexOf l pat fromIdx ≤ ((min fromIdx l.length : ℕ) : Int) := lastIdxAux_le _ _ _
    _ ≤ (fromIdx : Int) := by
        have := Nat.min_le_left fromIdx l.length
        push_cast; omega

theorem foldl_bestSplit_le (r : List Char) (maxCharsPerChunk : ℕ) :
    ∀ (enders : List (List Char)) (b : Int), b ≤ (maxCharsPerChunk : Int) + 1 →
      (∀ e ∈ enders, (e.length : Int) ≤ 2) →
      enders.foldl
        (fun bestSplit ender =>
          let lastIndex := jsLastIndexOf r ender maxCharsPerChunk
          if bestSplit < lastIndex then lastIndex + (ender.length : Int) - 1
          else bestSplit)
        b ≤ (maxCharsPerChunk : Int) + 1 := by
  intro enders
  induction enders with
  | nil => intro b hb _; simpa using hb
  | cons e es ih =>
    intro b hb hlen
    simp only [List.foldl_cons]
    refine ih _ ?_ (fun e' he' => hlen e' (List.mem_cons_of_mem _ he'))
    have h1 : jsLastIndexOf r e maxCharsPerChunk ≤ (maxCharsPerChunk : Int) :=
      jsLastIndexOf_le r e maxCharsPerChunk
    have h2 : (e.length : Int) ≤ 2 := hlen e (List.mem_cons_self e es)
    split <;> omega

theorem computeBestSplit_le (r : List Char) (maxCharsPerChunk : ℕ) :
    Tts.computeBestSplit r maxCharsPerChunk ≤ (maxCharsPerChunk : Int) + 1 := by
  refine foldl_bestSplit_le r maxCharsPerChunk Tts.sentenceEnders (-1) (by omega) ?_
  decide

theorem computeSplitIndex_le (r : List Char) (maxCharsPerChunk : ℕ) :
    Tts.computeSplitIndex r maxCharsPerChunk ≤ maxCharsPerChunk + 1 := by
  unfold Tts.computeSplitIndex
  have h1 := computeBestSplit_le r maxCharsPerChunk
  have h2 := jsLastIndexOf_le r ['\n'] maxCharsPerChunk
  have h3 := jsLastIndexOf_le r [' '] maxCharsPerChunk
  dsimp only
  split_ifs <;> omega

theorem computeSplitIndex_pos (r : List Char) (maxCharsPerChunk : ℕ)
    (hmax : 0 < maxCharsPerChunk) : 1 ≤ Tts.computeSplitIndex r maxCharsPerChunk := by
  unfold Tts.computeSplitIndex
  dsimp only
  split_ifs <;> omega

/-! ### Lemmas about the chunking loop -/

theorem splitGo_nil (maxCharsPerChunk fuel : ℕ) : Tts.splitGo maxCharsPerChunk fuel [] = [] := by
  cases fuel <;> simp [Tts.splitGo]

theorem splitGo_chunks (maxCharsPerChunk : ℕ) (hmax : 0 < maxCharsPerChunk) :
    ∀ (fuel : ℕ) (r : List Char), trimList r = r →
      ∀ c ∈ Tts.splitGo maxCharsPerChunk fuel r,
        c ≠ [] ∧ trimList c = c ∧ c.length ≤ maxCharsPerChunk + 1 := by
  intro fuel
  induction fuel with
  | zero => intro r _ c hc; simp [Tts.splitGo] at hc
  | succ fuel ih =>
    intro r htrim c hc
    by_cases h0 : r.length = 0
    · simp [Tts.splitGo, h0] at hc
    · by_cases h1 : r.length ≤ maxCharsPerChunk
      · simp only [Tts.splitGo, h0, if_false, h1, if_true, List.mem_singleton] at hc
        subst hc
        refine ⟨fun hnil => h0 (by rw [hnil]; rfl), htrim, by omega⟩
      · simp only [Tts.splitGo, h0, if_false, h1, List.mem_cons] at hc
        rcases hc with hc | hc
        · subst hc
          obtain ⟨cHead, r', hr⟩ : ∃ cHead r', r = cHead :: r' := by
            cases r with
            | nil => simp at h0
            | cons a as => exact ⟨a, as, rfl⟩
          have hcHead : isWs cHead = false := trimList_head_notWs r cHead r' htrim hr
          have hs := computeSplitIndex_pos r maxCharsPerChunk hmax
          refine ⟨trimList_take_ne_nil r cHead r' _ hr hcHead hs, trimList_idem _, ?_⟩
          calc (trimList (r.take (Tts.computeSplitIndex r maxCharsPerChunk))).length
              ≤ (r.take (Tts.computeSplitIndex r maxCharsPerChunk)).length :=
                trimList_length_le _
            _ ≤ Tts.computeSplitIndex r maxCharsPerChunk := by
                simp [List.length_take]
            _ ≤ maxCharsPerChunk + 1 := computeSplitIndex_le r maxCharsPerChunk
        · exact ih _ (trimList_idem _) c hc

theorem splitGo_fuel (maxCharsPerChunk : ℕ) (hmax : 0 < maxCharsPerChunk) :
    ∀ (fuel₁ fuel₂ : ℕ) (r : List Char), r.length ≤ fuel₁ → r.length ≤ fuel₂ →
      Tts.splitGo maxCharsPerChunk fuel₁ r = Tts.splitGo maxCharsPerChunk fuel₂ r := by
  intro fuel₁
  induction fuel₁ with
  | zero =>
    intro fuel₂ r h1 _
    have : r = [] := List.length_eq_zero.mp (by omega)
    subst this
    rw [splitGo_nil, splitGo_nil]
  | succ fuel₁ ih =>
    intro fuel₂ r h1 h2
    by_cases h0 : r.length = 0
    · have : r = [] := List.length_eq_zero.mp h0
      subst this
      rw [splitGo_nil, splitGo_nil]
    · obtain ⟨fuel₂', rfl⟩ : ∃ f, fuel₂ = f + 1 := ⟨fuel₂ - 1, by omega⟩
      by_cases hsmall : r.length ≤ maxCharsPerChunk
      · simp [Tts.splitGo, h0, hsmall]
      · simp only [Tts.splitGo, h0, if_false, hsmall]
        have hs := computeSplitIndex_pos r maxCharsPerChunk hmax
        have hdrop : (trimList (r.drop (Tts.computeSplitIndex r maxCharsPerChunk))).length ≤
            r.length - 1 := by
          calc (trimList (r.drop (Tts.computeSplitIndex r maxCharsPerChunk))).length
              ≤ (r.drop (Tts.computeSplitIndex r maxCharsPerChunk)).length :=
                trimList_length_le _
            _ ≤ r.length - 1 := by simp [List.length_drop]; omega
        rw [ih fuel₂' _ (by omega) (by omega)]

theorem splitGo_flatten_filter (maxCharsPerChunk : ℕ) (hmax : 0 < maxCharsPerChunk) :
    ∀ (fuel : ℕ) (r : List Char), r.length ≤ fuel →
      ((Tts.splitGo maxCharsPerChunk fuel r).flatten).filter (fun c => !isWs c) =
        r.filter (fun c => !isWs c) := by
  intro fuel
  induction fuel with
  | zero =>
    intro r h1
    have : r = [] := List.length_eq_zero.mp (by omega)
    subst this; simp [Tts.splitGo]
  | succ fuel ih =>
    intro r h1
    by_cases h0 : r.length = 0
    · have : r = [] := List.length_eq_zero.mp h0
      subst this; simp [Tts.splitGo]
    · by_cases hsmall : r.length ≤ maxCharsPerChunk
      · simp [Tts.splitGo, h0, hsmall]
      · simp only [Tts.splitGo, h0, if_false, hsmall, List.flatten_cons, List.filter_append]
        have hs := computeSplitIndex_pos r maxCharsPerChunk hmax
        have hdrop : (trimList (r.drop (Tts.computeSplitIndex r maxCharsPerChunk))).length ≤
            fuel := by
          calc (trimList (r.drop (Tts.computeSplitIndex r maxCharsPerChunk))).length
              ≤ (r.drop (Tts.computeSplitIndex r maxCharsPerChunk)).length :=
                trimList_length_le _
            _ ≤ fuel := by simp [List.length_drop]; omega
        rw [ih _ hdrop, filter_notWs_trimList, filter_notWs_trimList, ← List.filter_append,
          List.take_append_drop]

/-! ### Claim C1 -/

/-- Counterexample for claim C1 as stated: with `maxChunkSize = 4` and input
`"abcd. xyz"` (a sentence ender starting exactly at index 4),
`splitTextIntoChunks` emits the chunk `"abcd."` of length 5 >
`maxChunkSize`. -/
theorem c1_counterexample :
    ¬ ∀ c ∈ Tts.splitTextIntoChunks cexText 4, c.length ≤ 4 := by
  decide

/-- Amended claim C1: for every input string and every configured maximum
`maxCharsPerChunk > 0`, `splitTextIntoChunks` returns an ordered sequence of
non-empty trimmed strings each of length ≤ `maxCharsPerChunk + 1` (one more
than the configured maximum: a sentence-ender match starting exactly at index
`maxCharsPerChunk` makes the chunk include the punctuation character at that
index); if the trimmed input is empty it returns the empty sequence, and if
the trimmed input is nonempty with length ≤ `maxCharsPerChunk` it returns
exactly one chunk equal to the trimmed input. -/
theorem c1_split_chunk_shape (text : List Char) (maxCharsPerChunk : ℕ)
    (hmax : 0 < maxCharsPerChunk) :
    (∀ c ∈ Tts.splitTextIntoChunks text maxCharsPerChunk,
        c ≠ [] ∧ trimList c = c ∧ c.length ≤ maxCharsPerChunk + 1) ∧
      (trimList text = [] → Tts.splitTextIntoChunks text maxCharsPerChunk = []) ∧
      (trimList text ≠ [] → (trimList text).length ≤ maxCharsPerChunk →
        Tts.splitTextIntoChunks text maxCharsPerChunk = [trimList text]) := by
  refine ⟨fun c hc => splitGo_chunks maxCharsPerChunk hmax _ _ (trimList_idem text) c hc,
    ?_, ?_⟩
  · intro h
    unfold Tts.splitTextIntoChunks
    rw [h]; exact splitGo_nil _ _
  · intro hne hle
    unfold Tts.splitTextIntoChunks
    obtain ⟨n, hn⟩ : ∃ n, (trimList text).length = n + 1 := by
      cases h : (trimList text).length with
      | zero => exact absurd (List.length_eq_zero.mp h) hne
      | succ n => exact ⟨n, rfl⟩
    rw [hn]
    simp only [Tts.splitGo, hn]
    simp [hn.symm ▸ hle]

/-- Witness for `c1_split_chunk_shape` at the concrete counterexample
input. -/
theorem c1_witness :
    (∀ c ∈ Tts.splitTextIntoChunks cexText 4,
        c ≠ [] ∧ trimList c = c ∧ c.length ≤ 4 + 1) ∧
      (trimList cexText = [] → Tts.splitTextIntoChunks cexText 4 = []) ∧
      (trimList cexText ≠ [] → (trimList cexText).length ≤ 4 →
        Tts.splitTextIntoChunks cexText 4 = [trimList cexText]) :=
  c1_split_chunk_shape cexText 4 (by decide)

/-! ### Claim C2 -/

/-- Claim C2: concatenating the chunks of `splitTextIntoChunks` in order
preserves exactly the non-whitespace characters of the input, in the same
order (no loss, no duplication). -/
theorem c2_split_preserves_content (text : List Char) (maxCharsPerChunk : ℕ)
    (hmax : 0 < maxCharsPerChunk) :
    ((Tts.splitTextIntoChunks text maxCharsPerChunk).flatten).filter (fun c => !isWs c) =
      text.filter (fun c => !isWs c) := by
  unfold Tts.splitTextIntoChunks
  rw [splitGo_flatten_filter maxCharsPerChunk hmax _ _ le_rfl, filter_notWs_trimList]

/-- Witness for `c2_split_preserves_content` at the concrete counterexample
input. -/
theorem c2_witness :
    ((Tts.splitTextIntoChunks cexText 4).flatten).filter (fun c => !isWs c) =
      cexText.filter (fun c => !isWs c) :=
  c2_split_preserves_content cexText 4 (by decide)

/-! ### Claim C8 -/

/-- Claim C8: the chunking loop always terminates and never fails.  First
conjunct: the fuelled loop is stable at fuel equal to the trimmed input's
length — supplying any larger fuel gives the same (defined, total) result, so
the `while` loop finishes within that many iterations for every input string.
Second conjunct: every loop iteration strictly shrinks the remaining text. -/
theorem c8_split_terminates :
    (∀ (text : List Char) (maxCharsPerChunk fuel : ℕ), 0 < maxCharsPerChunk →
        (trimList text).length ≤ fuel →
        Tts.splitGo maxCharsPerChunk fuel (trimList text) =
          Tts.splitTextIntoChunks text maxCharsPerChunk) ∧
      (∀ (r : List Char) (maxCharsPerChunk : ℕ), 0 < maxCharsPerChunk →
        maxCharsPerChunk < r.length →
        (trimList (r.drop (Tts.computeSplitIndex r maxCharsPerChunk))).length < r.length) := by
  constructor
  · intro text maxCharsPerChunk fuel hmax hfuel
    exact splitGo_fuel maxCharsPerChunk hmax fuel _ _ hfuel le_rfl
  · intro r maxCharsPerChunk hmax hlen
    have hs := computeSplitIndex_pos r maxCharsPerChunk hmax
    calc (trimList (r.drop (Tts.computeSplitIndex r maxCharsPerChunk))).length
        ≤ (r.drop (Tts.computeSplitIndex r maxCharsPerChunk)).length := trimList_length_le _
      _ < r.length := by simp [List.length_drop]; omega

/-- Witness for `c8_split_terminates` at concrete inputs. -/
theorem c8_witness :
    Tts.splitGo 4 20 (trimList cexText) = Tts.splitTextIntoChunks cexText 4 ∧
      (trimList (cexText.drop (Tts.computeSplitIndex cexText 4))).length < cexText.length :=
  ⟨c8_split_terminates.1 cexText 4 20 (by decide) (by decide),
    c8_split_terminates.2 cexText 4 (by decide) (by decide)⟩

/-! ### Claim C9 -/

/-- Claim C9: for every speed multiplier in the 0.5–2.0 range,
`mapSpeedToRate` returns the sign-prefixed percentage string computed as
`round((speed - 1) * 100)` (the formalisation of the spec's description is
`mapSpeedToRatePercentSpec`); in particular `mapSpeedToRate 1 = "+0%"`,
`mapSpeedToRate 1.25 = "+25%"` and `mapSpeedToRate 0.75 = "-25%"`. -/
theorem c9_mapSpeedToRate :
    (∀ speed : ℚ, 1 / 2 ≤ speed → speed ≤ 2 →
        Tts.mapSpeedToRate speed = mapSpeedToRatePercentSpec speed) ∧
      Tts.mapSpeedToRate 1 = "+0%" ∧ Tts.mapSpeedToRate (5 / 4) = "+25%" ∧
      Tts.mapSpeedToRate (3 / 4) = "-25%" := by
  refine ⟨?_, ?_, ?_, ?_⟩
  · intro speed _ _
    unfold Tts.mapSpeedToRate mapSpeedToRatePercentSpec
    dsimp only
    split_ifs <;> simp [String.append_assoc]
  · rw [Tts.mapSpeedToRate]
    rw [show jsRound (((1 : ℚ) - 1) * 100) = 0 by norm_num [jsRound]]
    decide
  · rw [Tts.mapSpeedToRate]
    rw [show jsRound (((5 : ℚ) / 4 - 1) * 100) = 25 by norm_num [jsRound]]
    decide
  · rw [Tts.mapSpeedToRate]
    rw [show jsRound (((3 : ℚ) / 4 - 1) * 100) = -25 by norm_num [jsRound]]
    decide

/-- Witness for `c9_mapSpeedToRate` at speed 1.5. -/
theorem c9_witness : Tts.mapSpeedToRate (3 / 2) = mapSpeedToRatePercentSpec (3 / 2) :=
  c9_mapSpeedToRate.1 (3 / 2) (by norm_num) (by norm_num)

/-! ### Ordering lemmas for the cue grouping loops -/

theorem getLastD_mem_word (l : List Word) (d : Word) (h : l ≠ []) : l.getLastD d ∈ l := by
  induction l generalizing d with
  | nil => exact absurd rfl h
  | cons a l ih =>
    rw [List.getLastD_cons]
    cases l with
    | nil => simp [List.getLastD]
    | cons b t => exact List.mem_cons_of_mem a (ih a (by simp))

theorem headD_mem_word (l : List Word) (d : Word) (h : l ≠ []) : l.headD d ∈ l := by
  cases l with
  | nil => exact absurd rfl h
  | cons a t => simp

theorem headD_append_word (l l' : List Word) (d : Word) (h : l ≠ []) :
    (l ++ l').headD d = l.headD d := by
  cases l with
  | nil => exact absurd rfl h
  | cons a t => simp

theorem pairwise_headD_le (l : List Word) (y : Word) (d : Word)
    (hp : l.Pairwise (fun a b => a.startMs ≤ b.startMs)) (hy : y ∈ l) :
    (l.headD d).startMs ≤ y.startMs := by
  cases l with
  | nil => simp at hy
  | cons x xs =>
    rcases List.mem_cons.mp hy with rfl | hy'
    · simp
    · exact (List.pairwise_cons.mp hp).1 y hy'

theorem headD_le_getLastD (l : List Word) (d : Word)
    (hp : l.Pairwise (fun a b => a.startMs ≤ b.startMs)) (h : l ≠ []) :
    (l.headD d).startMs ≤ (l.getLastD d).startMs :=
  pairwise_headD_le l _ d hp (getLastD_mem_word l d h)

theorem mkCue_start_le_end (idx : ℕ) (ws : List Word) (h : ws ≠ [])
    (hp : ws.Pairwise (fun a b => a.startMs ≤ b.startMs))
    (hse : ∀ w ∈ ws, w.startMs ≤ w.endMs) :
    (Tts.mkCue idx ws).startMs ≤ (Tts.mkCue idx ws).endMs := by
  unfold Tts.mkCue
  dsimp only
  calc (ws.headD default).startMs ≤ (ws.getLastD default).startMs :=
        headD_le_getLastD ws default hp h
    _ ≤ (ws.getLastD default).endMs := hse _ (getLastD_mem_word ws default h)

theorem srtLoop_sorted :
    ∀ (words currentWords : List Word) (idx : ℕ),
      (∀ w ∈ currentWords ++ words, w.startMs ≤ w.endMs) →
      (currentWords ++ words).Pairwise (fun a b => a.startMs ≤ b.startMs) →
      (∀ c ∈ Tts.srtLoop words currentWords idx, c.startMs ≤ c.endMs) ∧
        (Tts.srtLoop words currentWords idx).Pairwise
          (fun a b : Cue => a.startMs ≤ b.startMs) ∧
        (∀ c ∈ Tts.srtLoop words currentWords idx,
          ∃ w ∈ currentWords ++ words, w.startMs = c.startMs) := by
  intro words
  induction words with
  | nil =>
    intro currentWords idx hse hp
    rw [List.append_nil] at hse hp
    by_cases hcur : currentWords.isEmpty
    · simp [Tts.srtLoop, hcur]
    · have hne : currentWords ≠ [] := by
        cases currentWords <;> simp_all
      simp only [Tts.srtLoop, hcur, if_false]
      refine ⟨?_, by simp, ?_⟩
      · intro c hc
        simp only [if_neg (by simp : ¬ (false = true)), List.mem_singleton] at hc
        subst hc
        exact mkCue_start_le_end idx currentWords hne hp hse
      · intro c hc
        simp only [if_neg (by simp : ¬ (false = true)), List.mem_singleton] at hc
        subst hc
        refine ⟨currentWords.headD default, ?_, rfl⟩
        rw [List.append_nil]
        exact headD_mem_word _ _ hne
  | cons w ws ih =>
    intro currentWords idx hse hp
    have hassoc : (currentWords ++ [w]) ++ ws = currentWords ++ w :: ws := by
      rw [List.append_assoc, List.singleton_append]
    have hcurne : currentWords ++ [w] ≠ [] := by simp
    by_cases hflush : Tts.WORDS_PER_SUBTITLE ≤ (currentWords ++ [w]).length ∨
        Tts.endsSentence w.text
    · simp only [Tts.srtLoop, hflush, if_true]
      have hsub2 : ws.Sublist (currentWords ++ w :: ws) :=
        (List.sublist_cons_self w ws).trans (List.sublist_append_right _ _)
      have ihr := ih [] (idx + 1)
        (by intro w' hw'; exact hse w' (by simpa using hsub2.mem (by simpa using hw')))
        (by simpa using hp.sublist hsub2)
      have hcurprops : ∀ w' ∈ currentWords ++ [w], w'.startMs ≤ w'.endMs := by
        intro w' hw'
        refine hse w' ?_
        rw [← hassoc]
        exact List.mem_append_left _ hw'
      have hcurpair : (currentWords ++ [w]).Pairwise (fun a b => a.startMs ≤ b.startMs) := by
        refine List.Pairwise.sublist ?_ hp
        rw [← hassoc]
        exact List.sublist_append_left _ _
      refine ⟨?_, ?_, ?_⟩
      · intro c hc
        rcases List.mem_cons.mp hc with rfl | hc'
        · exact mkCue_start_le_end idx _ hcurne hcurpair hcurprops
        · exact ihr.1 c hc'
      · rw [List.pairwise_cons]
        refine ⟨?_, ihr.2.1⟩
        intro c hc
        obtain ⟨w', hw', hw'eq⟩ := ihr.2.2 c hc
        rw [List.nil_append] at hw'
        have hhead : (Tts.mkCue idx (currentWords ++ [w])).startMs =
            ((currentWords ++ w :: ws).headD default).startMs := by
          unfold Tts.mkCue
          dsimp only
          rw [← hassoc, headD_append_word _ _ _ hcurne]
        rw [hhead, ← hw'eq]
        exact pairwise_headD_le _ _ _ hp (hsub2.mem hw')
      · intro c hc
        rcases List.mem_cons.mp hc with rfl | hc'
        · refine ⟨(currentWords ++ [w]).headD default, ?_, rfl⟩
          rw [← hassoc]
          exact List.mem_append_left _ (headD_mem_word _ _ hcurne)
        · obtain ⟨w', hw', hw'eq⟩ := ihr.2.2 c hc'
          rw [List.nil_append] at hw'
          exact ⟨w', hsub2.mem hw', hw'eq⟩
    · simp only [Tts.srtLoop, hflush, if_false]
      have ihr := ih (currentWords ++ [w]) idx (by rw [hassoc]; exact hse)
        (by rw [hassoc]; exact hp)
      refine ⟨ihr.1, ihr.2.1, ?_⟩
      intro c hc
      obtain ⟨w', hw', hw'eq⟩ := ihr.2.2 c hc
      rw [hassoc] at hw'
      exact ⟨w', hw', hw'eq⟩

theorem wordsOf_sorted (boundaries : List WordBoundary) (timeOffset : ℚ)
    (hp : boundaries.Pairwise (fun a b => a.Data.Offset ≤ b.Data.Offset)) :
    (Tts.wordsOf boundaries timeOffset).Pairwise (fun a b => a.startMs ≤ b.startMs) := by
  unfold Tts.wordsOf
  rw [List.pairwise_map]
  refine (hp.sublist (List.filter_sublist _)).imp ?_
  intro a b hab
  unfold Tts.wordOfBoundary ticksToMs
  dsimp only
  linarith

theorem wordsOf_start_le_end (boundaries : List WordBoundary) (timeOffset : ℚ)
    (hd : ∀ b ∈ boundaries, 0 ≤ b.Data.Duration) :
    ∀ w ∈ Tts.wordsOf boundaries timeOffset, w.startMs ≤ w.endMs := by
  intro w hw
  unfold Tts.wordsOf at hw
  obtain ⟨b, hb, rfl⟩ := List.mem_map.mp hw
  have hdur := hd b (List.mem_of_mem_filter hb)
  unfold Tts.wordOfBoundary ticksToMs
  dsimp only
  linarith

theorem estimGo_sorted (msPerWord : ℚ) (hm : 0 ≤ msPerWord) :
    ∀ (n : ℕ) (words : List (List Char)), words.length ≤ n → ∀ (idx : ℕ) (t : ℚ),
      (∀ c ∈ TtsEst.estimGo msPerWord words idx t, t ≤ c.startMs ∧ c.startMs ≤ c.endMs) ∧
        (TtsEst.estimGo msPerWord words idx t).Pairwise
          (fun a b : Cue => a.startMs ≤ b.startMs) := by
  intro n
  induction n with
  | zero =>
    intro words h idx t
    have : words = [] := List.length_eq_zero.mp (by omega)
    subst this
    simp [TtsEst.estimGo]
  | succ n ih =>
    intro words h idx t
    cases words with
    | nil => simp [TtsEst.estimGo]
    | cons w ws =>
      rw [TtsEst.estimGo]
      have hd0 : 0 ≤ ((List.take TtsEst.WORDS_PER_SUBTITLE (w :: ws)).length : ℚ) * msPerWord :=
        mul_nonneg (by positivity) hm
      have ihr := ih ((w :: ws).drop TtsEst.WORDS_PER_SUBTITLE)
        (by simp only [List.length_drop, List.length_cons, TtsEst.WORDS_PER_SUBTITLE] at h ⊢
            omega) (idx + 1)
        (t + ((List.take TtsEst.WORDS_PER_SUBTITLE (w :: ws)).length : ℚ) * msPerWord)
      constructor
      · intro c hc
        rcases List.mem_cons.mp hc with rfl | hc'
        · exact ⟨le_refl _, le_add_of_nonneg_right hd0⟩
        · have h1 := ihr.1 c hc'
          exact ⟨by linarith [h1.1], h1.2⟩
      · rw [List.pairwise_cons]
        refine ⟨fun c hc => ?_, ihr.2⟩
        have h1 := ihr.1 c hc
        exact le_trans (le_add_of_nonneg_right hd0) h1.1

/-! ### Claim C5 -/

/-- Counterexample for claim C5 as stated: the claim asserts cue
monotonicity unconditionally for the estimation mode, but for a negative
speed (reachable through the HTTP API, whose `speed` field is not validated:
`speed = -1` gives `rate = "-200%"`, parsed back as `-1`) the per-word
allocation is negative and a cue's start exceeds its end. -/
theorem c5_counterexample :
    ¬ ∀ c ∈ TtsEst.generateSRTFromTextCues ['a'] 1000 (-1), c.startMs ≤ c.endMs := by
  intro hall
  have hw : (TtsEst.splitWs (trimList ['a'])).filter (fun w => !w.isEmpty) = [['a']] := by
    decide
  have hcue : TtsEst.generateSRTFromTextCues ['a'] 1000 (-1) =
      [⟨1, 0, 0 + (1 : ℚ) * (1000 / (-1) / 1), ['a']⟩] := by
    unfold TtsEst.generateSRTFromTextCues
    rw [hw]
    norm_num
    rw [TtsEst.estimGo]
    simp [TtsEst.estimGo, TtsEst.WORDS_PER_SUBTITLE, joinSpace]
  have h1 := hall _ (by rw [hcue]; exact List.mem_singleton.mpr rfl)
  norm_num at h1

/-- Amended claim C5: each cue's start time is ≤ its end time and cue start
times are non-decreasing across cues, for Mode A (`generateSRT`'s cues) under
the stated precondition that the engine's word-boundary events are
time-ordered with non-negative durations, and for Mode B
(`generateSRTFromText`'s cues) under the precondition — always met by the
pipeline's own inputs, but not by arbitrary arguments — that the estimated
audio duration is ≥ 0 and the speed multiplier is > 0. -/
theorem c5_cue_monotonicity :
    (∀ (boundaries : List WordBoundary) (timeOffset : ℚ),
        boundaries.Pairwise (fun a b => a.Data.Offset ≤ b.Data.Offset) →
        (∀ b ∈ boundaries, 0 ≤ b.Data.Duration) →
        (∀ c ∈ Tts.generateSRTCues boundaries timeOffset, c.startMs ≤ c.endMs) ∧
          (Tts.generateSRTCues boundaries timeOffset).Pairwise
            (fun a b : Cue => a.startMs ≤ b.startMs)) ∧
      (∀ (text : List Char) (audioDurationMs speed : ℚ),
        0 ≤ audioDurationMs → 0 < speed →
        (∀ c ∈ TtsEst.generateSRTFromTextCues text audioDurationMs speed,
            c.startMs ≤ c.endMs) ∧
          (TtsEst.generateSRTFromTextCues text audioDurationMs speed).Pairwise
            (fun a b : Cue => a.startMs ≤ b.startMs)) := by
  constructor
  · intro boundaries timeOffset hp hd
    have hsorted := wordsOf_sorted boundaries timeOffset hp
    have hse := wordsOf_start_le_end boundaries timeOffset hd
    have h := srtLoop_sorted (Tts.wordsOf boundaries timeOffset) [] 1
      (by simpa using hse) (by simpa using hsorted)
    exact ⟨h.1, h.2.1⟩
  · intro text audioDurationMs speed hdur hspeed
    unfold TtsEst.generateSRTFromTextCues
    by_cases hlen : ((TtsEst.splitWs (trimList text)).filter (fun w => !w.isEmpty)).length = 0
    · simp [hlen]
    · simp only [hlen, if_false]
      have hm : 0 ≤ audioDurationMs / speed /
          (((TtsEst.splitWs (trimList text)).filter (fun w => !w.isEmpty)).length : ℚ) := by
        apply div_nonneg (div_nonneg hdur hspeed.le)
        positivity
      have h := estimGo_sorted _ hm
        ((TtsEst.splitWs (trimList text)).filter (fun w => !w.isEmpty)).length
        ((TtsEst.splitWs (trimList text)).filter (fun w => !w.isEmpty)) le_rfl 1 0
      exact ⟨fun c hc => (h.1 c hc).2, h.2⟩

/-- Witness for `c5_cue_monotonicity` at concrete inputs: one word-boundary
event in Mode A, a one-word text in Mode B. -/
theorem c5_witness :
    ((∀ c ∈ Tts.generateSRTCues [demoBoundary 50000 10000 ['h', 'i']] 0,
        c.startMs ≤ c.endMs) ∧
      (Tts.generateSRTCues [demoBoundary 50000 10000 ['h', 'i']] 0).Pairwise
        (fun a b : Cue => a.startMs ≤ b.startMs)) ∧
      ((∀ c ∈ TtsEst.generateSRTFromTextCues ['a'] 1000 1, c.startMs ≤ c.endMs) ∧
        (TtsEst.generateSRTFromTextCues ['a'] 1000 1).Pairwise
          (fun a b : Cue => a.startMs ≤ b.startMs)) :=
  ⟨c5_cue_monotonicity.1 [demoBoundary 50000 10000 ['h', 'i']] 0 (by simp)
      (by intro b hb; rw [List.mem_singleton] at hb; subst hb; norm_num [demoBoundary]),
    c5_cue_monotonicity.2 ['a'] 1000 1 (by norm_num) (by norm_num)⟩

theorem fiftyWordCues_eval :
    (TtsEst.generateSRTFromTextCues fiftyWordText 20000 1).map
        (fun c => (c.index, c.startMs, c.endMs)) =
      [(1, 0, 3200), (2, 3200, 6400), (3, 6400, 9600), (4, 9600, 12800),
        (5, 12800, 16000), (6, 16000, 19200), (7, 19200, 20000)] := by
  have hw : (TtsEst.splitWs (trimList fiftyWordText)).filter (fun w => !w.isEmpty) =
      List.replicate 50 ['w'] := by decide
  unfold TtsEst.generateSRTFromTextCues
  rw [hw]
  norm_num [TtsEst.estimGo, TtsEst.WORDS_PER_SUBTITLE, List.replicate]

theorem formatSrtTime_zero : formatSrtTime 0 = "00:00:00,000" := by
  have h1 : jsMod 0 3600000 = 0 := by norm_num [jsMod, jsTrunc]
  have h2 : jsMod 0 60000 = 0 := by norm_num [jsMod, jsTrunc]
  have h3 : jsMod 0 1000 = 0 := by norm_num [jsMod, jsTrunc]
  unfold formatSrtTime
  rw [h1, h2, h3]
  norm_num
  decide

/-! ### Claim C6 -/

/-- Counterexample for claim C6 as stated: the estimation variant that owns
`generateSRTFromText` groups 8 words per cue (its `WORDS_PER_SUBTITLE` is 8,
not 10), so the 50-word scenario with total duration 20,000 ms and speed 1.0
produces 7 cues, not 5. -/
theorem c6_counterexample :
    (TtsEst.generateSRTFromTextCues fiftyWordText 20000 1).length ≠ 5 := by
  have h := congrArg List.length fiftyWordCues_eval
  rw [List.length_map] at h
  rw [h]
  decide

/-- Amended claim C6: in the estimation mode the estimated total duration is
divided by the word count into a per-word allocation and words are grouped
into cues of `WORDS_PER_SUBTITLE = 8` with cumulative start/end times; for a
50-word input with total estimated duration 20,000 ms and speed 1.0,
`generateSRTFromText` produces exactly 7 cues — six spanning 3,200 ms (8
words × 400 ms) and a final 2-word cue spanning 800 ms — with cue 1 starting
at timestamp `00:00:00,000`. -/
theorem c6_estimation_scenario :
    (TtsEst.generateSRTFromTextCues fiftyWordText 20000 1).length = 7 ∧
      (TtsEst.generateSRTFromTextCues fiftyWordText 20000 1).map
          (fun c => (c.index, c.startMs, c.endMs)) =
        [(1, 0, 3200), (2, 3200, 6400), (3, 6400, 9600), (4, 9600, 12800),
          (5, 12800, 16000), (6, 16000, 19200), (7, 19200, 20000)] ∧
      formatSrtTime 0 = "00:00:00,000" := by
  refine ⟨?_, fiftyWordCues_eval, formatSrtTime_zero⟩
  have h := congrArg List.length fiftyWordCues_eval
  rw [List.length_map] at h
  rw [h]
  decide

/-! ### Lemmas about the orchestrator loop -/

theorem synthLoop_error {ε : Type} (synth : ℕ → List Char → List Char → Except ε ChunkOut)
    (voice : List Char) (total : ℕ) :
    ∀ (chunks : List (List Char)) (i : ℕ) (bufs : List (List ℕ)) (bnds : List WordBoundary)
      (off : ℚ) (evs : List ProgressInfo) (k : ℕ) (e : ε),
      k < chunks.length →
      (∀ j, j < k → ∃ out, synth (i + j) (chunks.getD j []) voice = Except.ok out) →
      synth (i + k) (chunks.getD k []) voice = Except.error e →
      Tts.synthLoop synth voice total chunks i bufs bnds off evs = Except.error e := by
  intro chunks
  induction chunks with
  | nil =>
    intro i bufs bnds off evs k e hk
    simp at hk
  | cons c rest ih =>
    intro i bufs bnds off evs k e hk hok herr
    cases k with
    | zero =>
      simp only [List.getD_cons_zero, Nat.add_zero] at herr
      simp only [Tts.synthLoop, herr]
    | succ k =>
      obtain ⟨out, hout⟩ := hok 0 (Nat.succ_pos k)
      simp only [List.getD_cons_zero, Nat.add_zero] at hout
      simp only [Tts.synthLoop, hout]
      refine ih (i + 1) _ _ _ _ k e (by simpa using hk) ?_ ?_
      · intro j hj
        obtain ⟨out', hout'⟩ := hok (j + 1) (by omega)
        refine ⟨out', ?_⟩
        rw [show i + 1 + j = i + (j + 1) by omega]
        simpa using hout'
      · rw [show i + 1 + k = i + (k + 1) by omega]
        simpa using herr

theorem synthLoop_ok_events {ε : Type} (synth : ℕ → List Char → List Char → Except ε ChunkOut)
    (voice : List Char) (total : ℕ) :
    ∀ (chunks : List (List Char)) (i : ℕ) (bufs : List (List ℕ)) (bnds : List WordBoundary)
      (off : ℚ) (evs : List ProgressInfo) (bufs' : List (List ℕ)) (bnds' : List WordBoundary)
      (evs' : List ProgressInfo),
      Tts.synthLoop synth voice total chunks i bufs bnds off evs =
        Except.ok (bufs', bnds', evs') →
      evs' = evs ++ (List.range chunks.length).map (fun j => Tts.progressEvent (i + j) total) := by
  intro chunks
  induction chunks with
  | nil =>
    intro i bufs bnds off evs bufs' bnds' evs' h
    simp only [Tts.synthLoop, Except.ok.injEq, Prod.mk.injEq] at h
    simp [← h.2.2]
  | cons c rest ih =>
    intro i bufs bnds off evs bufs' bnds' evs' h
    simp only [Tts.synthLoop] at h
    cases hs : synth i c voice with
    | error e => rw [hs] at h; simp at h
    | ok out =>
      rw [hs] at h
      have h1 := ih (i + 1) _ _ _ _ _ _ _ h
      rw [h1, List.length_cons, List.range_succ_eq_map, List.map_cons, List.map_map]
      rw [List.append_assoc, List.singleton_append, Nat.add_zero]
      have hfun : ((fun j => Tts.progressEvent (i + j) total) ∘ Nat.succ) =
          (fun j => Tts.progressEvent (i + 1 + j) total) := by
        funext j
        simp only [Function.comp]
        congr 1
        omega
      rw [hfun]
      simp

theorem synthLoop_ok_runBoundaries {ε : Type} (f : ℕ → List Char → List Char → ChunkOut)
    (voice : List Char) (total : ℕ) :
    ∀ (chunks : List (List Char)) (i : ℕ) (bufs : List (List ℕ)) (bnds : List WordBoundary)
      (off : ℚ) (evs : List ProgressInfo) (bufs' : List (List ℕ)) (bnds' : List WordBoundary)
      (evs' : List ProgressInfo),
      Tts.synthLoop (fun i t v => (Except.ok (f i t v) : Except ε ChunkOut)) voice total
          chunks i bufs bnds off evs =
        Except.ok (bufs', bnds', evs') →
      bnds' = bnds ++ runBoundaries (outsOf f voice chunks i) off := by
  intro chunks
  induction chunks with
  | nil =>
    intro i bufs bnds off evs bufs' bnds' evs' h
    simp only [Tts.synthLoop, Except.ok.injEq, Prod.mk.injEq] at h
    simp [← h.2.1, outsOf, runBoundaries]
  | cons c rest ih =>
    intro i bufs bnds off evs bufs' bnds' evs' h
    simp only [Tts.synthLoop] at h
    have h1 := ih (i + 1) _ _ _ _ _ _ _ h
    rw [h1, outsOf, runBoundaries, List.append_assoc]

theorem runBoundaries_eq_bind :
    ∀ (outs : List ChunkOut) (off : ℚ),
      runBoundaries outs off = (List.range outs.length).flatMap (fun k =>
        ((outs.getD k default).boundaries).map (Tts.shiftBoundary (off +
          ((List.range k).map
            (fun j => Tts.estimatedDurationMs (outs.getD j default).audio)).sum))) := by
  intro outs
  induction outs with
  | nil => intro off; simp [runBoundaries]
  | cons o rest ih =>
    intro off
    rw [runBoundaries, ih, List.length_cons, List.range_succ_eq_map, List.flatMap_cons,
      List.flatMap_map]
    congr 1
    · simp
    · refine List.flatMap_congr ?_
      intro k _
      have hfun : ((fun j => Tts.estimatedDurationMs ((o :: rest).getD j default).audio) ∘
          Nat.succ) = (fun j => Tts.estimatedDurationMs (rest.getD j default).audio) := by
        funext j
        simp
      simp only [List.getD_cons_succ, List.range_succ_eq_map, List.map_cons, List.sum_cons,
        List.map_map, List.getD_cons_zero, hfun]
      congr 2
      ring_nf

theorem outsOf_length (f : ℕ → List Char → List Char → ChunkOut) (voice : List Char) :
    ∀ (chunks : List (List Char)) (i : ℕ), (outsOf f voice chunks i).length = chunks.length := by
  intro chunks
  induction chunks with
  | nil => intro i; rfl
  | cons c rest ih => intro i; simp [outsOf, ih]

theorem outsOf_getD (f : ℕ → List Char → List Char → ChunkOut) (voice : List Char) :
    ∀ (chunks : List (List Char)) (i k : ℕ), k < chunks.length →
      (outsOf f voice chunks i).getD k default = f (i + k) (chunks.getD k []) voice := by
  intro chunks
  induction chunks with
  | nil => intro i k hk; simp at hk
  | cons c rest ih =>
    intro i k hk
    cases k with
    | zero => simp [outsOf]
    | succ k =>
      rw [outsOf, List.getD_cons_succ, List.getD_cons_succ, ih (i + 1) k (by simpa using hk)]
      congr 1
      omega

theorem progressEvent_eq (i total : ℕ) :
    Tts.progressEvent i total =
      { current := i + 1, total := total,
        percent := jsRound ((100 * ((i : ℚ) + 1)) / (total : ℚ)) } := by
  unfold Tts.progressEvent
  congr 1
  unfold jsRound
  congr 1
  ring

/-! ### Claim C3 -/

/-- Claim C3: if the engine call for some chunk `k` fails (all earlier calls
having succeeded), the whole `synthesizeSpeechWithSRT` run is that error: no
result, no partial audio and no subtitle text reach the caller, and the
audio/boundary/progress state accumulated up to chunk `k` is discarded (the
returned value carries nothing but the error). -/
theorem c3_failure_aborts {ε : Type} (synth : ℕ → List Char → List Char → Except ε ChunkOut)
    (text voice : List Char) (rate : String) (k : ℕ) (e : ε)
    (hk : k < (Tts.splitTextIntoChunks text Tts.MAX_CHARS_PER_CHUNK).length)
    (hok : ∀ j, j < k → ∃ out,
      synth j ((Tts.splitTextIntoChunks text Tts.MAX_CHARS_PER_CHUNK).getD j []) voice =
        Except.ok out)
    (herr : synth k ((Tts.splitTextIntoChunks text Tts.MAX_CHARS_PER_CHUNK).getD k []) voice =
      Except.error e) :
    Tts.synthesizeSpeechWithSRT synth text voice rate = Except.error e := by
  have hloop := synthLoop_error synth voice
    (Tts.splitTextIntoChunks text Tts.MAX_CHARS_PER_CHUNK).length
    (Tts.splitTextIntoChunks text Tts.MAX_CHARS_PER_CHUNK) 0 [] [] 0 [] k e hk
    (by simpa using hok) (by simpa using herr)
  simp only [Tts.synthesizeSpeechWithSRT, hloop]

/-- Witness for `c3_failure_aborts`: a one-chunk text whose only engine call
fails. -/
theorem c3_witness :
    Tts.synthesizeSpeechWithSRT failSynth ['h', 'i'] [] "+0%" = Except.error () :=
  c3_failure_aborts failSynth ['h', 'i'] [] "+0%" 0 () (by decide)
    (fun j hj => absurd hj (by omega)) rfl

/-! ### Claim C7 -/

/-- Claim C7: on a successful run the recorded progress trace is exactly one
event per chunk, in order: the `i`-th event (0-based) is
`{current := i + 1, total := n, percent := round(100 * (i + 1) / n)}` for `n`
the chunk count, so events arrive in strictly increasing `current` order, one
after each completed chunk, all recorded before the final result is
produced. -/
theorem c7_progress_trace {ε : Type} (synth : ℕ → List Char → List Char → Except ε ChunkOut)
    (text voice : List Char) (rate : String) (res : SynthesisResult) (evs : List ProgressInfo)
    (h : Tts.synthesizeSpeechWithSRT synth text voice rate = Except.ok (res, evs)) :
    evs = (List.range (Tts.splitTextIntoChunks text Tts.MAX_CHARS_PER_CHUNK).length).map
      (fun i =>
        { current := i + 1
          total := (Tts.splitTextIntoChunks text Tts.MAX_CHARS_PER_CHUNK).length
          percent := jsRound ((100 * ((i : ℚ) + 1)) /
            ((Tts.splitTextIntoChunks text Tts.MAX_CHARS_PER_CHUNK).length : ℚ)) }) := by
  simp only [Tts.synthesizeSpeechWithSRT] at h
  cases hloop : Tts.synthLoop synth voice
      (Tts.splitTextIntoChunks text Tts.MAX_CHARS_PER_CHUNK).length
      (Tts.splitTextIntoChunks text Tts.MAX_CHARS_PER_CHUNK) 0 [] [] 0 [] with
  | error e => rw [hloop] at h; simp at h
  | ok triple =>
    obtain ⟨bufs', bnds', evs'⟩ := triple
    rw [hloop] at h
    simp only [Except.ok.injEq, Prod.mk.injEq] at h
    have hevs := synthLoop_ok_events synth voice
      (Tts.splitTextIntoChunks text Tts.MAX_CHARS_PER_CHUNK).length
      (Tts.splitTextIntoChunks text Tts.MAX_CHARS_PER_CHUNK) 0 [] [] 0 [] bufs' bnds' evs' hloop
    rw [← h.2, hevs]
    simp only [List.nil_append, Nat.zero_add]
    refine List.map_congr_left ?_
    intro i _
    exact progressEvent_eq i _

/-- Witness for `c7_progress_trace`: a one-chunk run with an
always-succeeding engine. -/
theorem c7_witness :
    ([Tts.progressEvent 0 1] : List ProgressInfo) =
      (List.range (Tts.splitTextIntoChunks ['h', 'i'] Tts.MAX_CHARS_PER_CHUNK).length).map
        (fun i =>
          { current := i + 1
            total := (Tts.splitTextIntoChunks ['h', 'i'] Tts.MAX_CHARS_PER_CHUNK).length
            percent := jsRound ((100 * ((i : ℚ) + 1)) /
              ((Tts.splitTextIntoChunks ['h', 'i'] Tts.MAX_CHARS_PER_CHUNK).length : ℚ)) }) := by
  have hchunks : Tts.splitTextIntoChunks ['h', 'i'] Tts.MAX_CHARS_PER_CHUNK = [['h', 'i']] := by
    decide
  have h : Tts.synthesizeSpeechWithSRT okSynth ['h', 'i'] [] "+0%" =
      Except.ok ({ audio := [], srt := "" }, [Tts.progressEvent 0 1]) := by
    simp [Tts.synthesizeSpeechWithSRT, hchunks, Tts.synthLoop, okSynth, Tts.generateSRT]
  exact c7_progress_trace okSynth ['h', 'i'] [] "+0%" { audio := [], srt := "" }
    [Tts.progressEvent 0 1] h

/-! ### Claim C4 -/

/-- Claim C4: when every engine call succeeds (pure behavior `f`), the
boundary list accumulated by the orchestrator loop of
`synthesizeSpeechWithSRT` (started, as there, from index 0, empty
accumulators and running offset 0) is, chunk by chunk in order, the chunk's
own events shifted by the running offset — the sum over all prior chunks of
`(audio bytes / 6000) * 1000` milliseconds — converted to ticks by
multiplying by 10,000 inside `shiftBoundary`, which changes `Offset` to
`Offset + timeOffset * 10000` and leaves `Duration`, the `text` payload and
the event type unchanged. -/
theorem c4_offset_shift {ε : Type} (f : ℕ → List Char → List Char → ChunkOut)
    (voice : List Char) (chunks : List (List Char)) (total : ℕ)
    (bufs : List (List ℕ)) (bnds : List WordBoundary) (evs : List ProgressInfo)
    (h : Tts.synthLoop (fun i t v => (Except.ok (f i t v) : Except ε ChunkOut)) voice total
      chunks 0 [] [] 0 [] = Except.ok (bufs, bnds, evs)) :
    bnds = (List.range chunks.length).flatMap (fun k =>
        ((f k (chunks.getD k []) voice).boundaries).map (Tts.shiftBoundary
          (((List.range k).map (fun j =>
            Tts.estimatedDurationMs (f j (chunks.getD j []) voice).audio)).sum))) ∧
      ∀ (timeOffset : ℚ) (b : WordBoundary),
        (Tts.shiftBoundary timeOffset b).Data.Offset = b.Data.Offset + timeOffset * 10000 ∧
        (Tts.shiftBoundary timeOffset b).Data.Duration = b.Data.Duration ∧
        (Tts.shiftBoundary timeOffset b).Data.text = b.Data.text ∧
        (Tts.shiftBoundary timeOffset b).Type' = b.Type' := by
  constructor
  · have h1 := synthLoop_ok_runBoundaries f voice total chunks 0 [] [] 0 [] bufs bnds evs h
    rw [List.nil_append] at h1
    rw [h1, runBoundaries_eq_bind, outsOf_length]
    refine List.flatMap_congr ?_
    intro k hk
    rw [List.mem_range] at hk
    have hsum : ((List.range k).map (fun j =>
        Tts.estimatedDurationMs ((outsOf f voice chunks 0).getD j default).audio)).sum =
        ((List.range k).map (fun j =>
          Tts.estimatedDurationMs (f j (chunks.getD j []) voice).audio)).sum := by
      congr 1
      refine List.map_congr_left ?_
      intro j hj
      rw [List.mem_range] at hj
      rw [outsOf_getD f voice chunks 0 j (by omega), Nat.zero_add]
    rw [outsOf_getD f voice chunks 0 k hk, Nat.zero_add, hsum, zero_add]
  · intro timeOffset b
    exact ⟨rfl, rfl, rfl, rfl⟩

/-- Witness for `c4_offset_shift`: one chunk, one boundary event, one byte of
audio. -/
theorem c4_witness :
    ([Tts.shiftBoundary 0 (demoBoundary 50000 10000 ['h', 'i'])] : List WordBoundary) =
      (List.range ([['h', 'i']] : List (List Char)).length).flatMap (fun k =>
        ((oneBoundaryOut k (([['h', 'i']] : List (List Char)).getD k []) []).boundaries).map
          (Tts.shiftBoundary (((List.range k).map (fun j =>
            Tts.estimatedDurationMs
              (oneBoundaryOut j (([['h', 'i']] : List (List Char)).getD j []) []).audio)).sum))) ∧
      ∀ (timeOffset : ℚ) (b : WordBoundary),
        (Tts.shiftBoundary timeOffset b).Data.Offset = b.Data.Offset + timeOffset * 10000 ∧
        (Tts.shiftBoundary timeOffset b).Data.Duration = b.Data.Duration ∧
        (Tts.shiftBoundary timeOffset b).Data.text = b.Data.text ∧
        (Tts.shiftBoundary timeOffset b).Type' = b.Type' := by
  have h : Tts.synthLoop (fun i t v => (Except.ok (oneBoundaryOut i t v) : Except Unit ChunkOut))
      [] 1 [['h', 'i']] 0 [] [] 0 [] =
      Except.ok ([[97]], [Tts.shiftBoundary 0 (demoBoundary 50000 10000 ['h', 'i'])],
        [Tts.progressEvent 0 1]) := by
    simp [Tts.synthLoop, oneBoundaryOut]
  exact c4_offset_shift oneBoundaryOut [] [['h', 'i']] 1 [[97]]
    [Tts.shiftBoundary 0 (demoBoundary 50000 10000 ['h', 'i'])] [Tts.progressEvent 0 1] h

/-! ### Claim C10 -/

/-- Claim C10: in the canonical variant the `rate` argument of
`synthesizeSpeechWithSRT` has no effect whatsoever — for any engine oracle,
text, voice and any two rate strings the two runs are identical (same audio,
same SRT, same progress trace, same error behaviour), because `rate` is never
forwarded to the engine nor read anywhere in chunking, synthesis or subtitle
generation. -/
theorem c10_rate_unused {ε : Type} (synth : ℕ → List Char → List Char → Except ε ChunkOut)
    (text voice : List Char) (r1 r2 : String) :
    Tts.synthesizeSpeechWithSRT synth text voice r1 =
      Tts.synthesizeSpeechWithSRT synth text voice r2 := rfl
